import Mathlib

/-!
Shallow embedding of the readability-metrics engine in `src/main.rs`
(struct `TextMetrics`, `impl TextAnalyzer`).  Text is modelled as
`List Char`; Rust `usize` counts are modelled as `Nat`, with an explicit
`% 2 ^ 64` at the one subtraction that can overflow.  The `f64` scores are
modelled exactly: the three division-only formulas over `ℚ`, the SMOG
formula (which takes a square root) over `ℝ`.
-/

/-- Embeds the character class `[a-zA-Z]` of `word_pattern` (ASCII letters).
`Char.isAlpha` tests exactly the ASCII ranges a-z and A-Z. -/
def isAsciiLetter (c : Char) : Bool := c.isAlpha

/-- Embeds Rust `char::is_alphabetic` (the Unicode `Alphabetic` property),
used by `trim_matches` and by `character_count`.  Modelled faithfully for
code points below 0x100 (ASCII letters plus the Latin-1 letters 0xAA, 0xB5,
0xBA, 0xC0-0xD6, 0xD8-0xF6, 0xF8-0xFF); higher code points are not modelled
and are treated as non-alphabetic. -/
def isAlphabetic (c : Char) : Bool :=
  c.isAlpha ||
    decide (c.toNat = 0xAA ∨ c.toNat = 0xB5 ∨ c.toNat = 0xBA ∨
      (0xC0 ≤ c.toNat ∧ c.toNat ≤ 0xD6) ∨ (0xD8 ≤ c.toNat ∧ c.toNat ≤ 0xF6) ∨
      (0xF8 ≤ c.toNat ∧ c.toNat ≤ 0xFF))

/-- Embeds the regex notion of a word character (`\w`), which decides where
the `\b` anchors of `word_pattern` hold: alphabetic, decimal digit, or
underscore.  Restricted below 0x100 exactly like `isAlphabetic`. -/
def isWordChar (c : Char) : Bool := isAlphabetic c || c.isDigit || c == '_'

/-- Embeds the character class `[aeiouy]` of `vowel_pattern` and of the
`consecutive_vowels` pattern `[aeiouy]{2,}`. -/
def isVowelChar (c : Char) : Bool :=
  c == 'a' || c == 'e' || c == 'i' || c == 'o' || c == 'u' || c == 'y'

/-- Embeds the character class `[.!?]` of `sentence_pattern`. -/
def isSentenceChar (c : Char) : Bool := c == '.' || c == '!' || c == '?'

/-- Embeds Rust `char`-wise lowercasing as performed by `str::to_lowercase`:
faithful on ASCII (`Char.toLower` maps A-Z to a-z and fixes everything
else); multi-character Unicode lowercasings are not modelled. -/
def toLowerChar (c : Char) : Char := c.toLower

/-- Embeds Rust `str::ends_with`. -/
def endsWith (w s : List Char) : Bool := s.isSuffixOf w

/-- Embeds `word.trim_matches(|c: char| !c.is_alphabetic())`: strip leading
and trailing non-alphabetic characters. -/
def trimNonAlpha (w : List Char) : List Char :=
  ((w.dropWhile (fun c => !isAlphabetic c)).reverse.dropWhile
    (fun c => !isAlphabetic c)).reverse

/-- Embeds the `cleaned_word` computation shared by `count_syllables` and
`is_complex_word`: trim non-alphabetic ends, then lowercase. -/
def cleanedWord (w : List Char) : List Char :=
  (trimNonAlpha w).map toLowerChar

/-- Scanner for `Regex::find_iter` with a pattern of the form `p+`: `cur`
holds the reversed run currently being read.  Emits the maximal runs of
characters satisfying `p`, in order. -/
def runsAux (p : Char → Bool) (cur : List Char) : List Char → List (List Char)
  | [] => if cur.isEmpty then [] else [cur.reverse]
  | c :: cs =>
    if p c then runsAux p (c :: cur) cs
    else if cur.isEmpty then runsAux p cur cs
    else cur.reverse :: runsAux p [] cs

/-- Embeds `find_iter` for the one-class patterns `[aeiouy]+` and `[.!?]+`:
the list of maximal runs of characters satisfying `p`, in order. -/
def runs (p : Char → Bool) (l : List Char) : List (List Char) :=
  runsAux p [] l

/-- Embeds `TextAnalyzer::count_syllables`.  The final `count -=
consecutive_vowels…count()` is a Rust `usize` subtraction: it is modelled
with the release-build wrapping semantics `(a + 2 ^ 64 - b) % 2 ^ 64`
(in a debug build the same underflow panics; see
`countSyllablesUnderflows`). -/
def countSyllables (w : List Char) : ℕ :=
  let cw := cleanedWord w
  if cw.isEmpty then 0
  else
    let vruns := runs isVowelChar cw
    let c0 := vruns.length
    let c1 :=
      if endsWith cw ['e'] && decide (1 < c0) && !endsWith cw ['l', 'e'] then
        c0 - 1
      else c0
    let deduct := (vruns.filter (fun r => decide (2 ≤ r.length))).length
    Nat.max ((c1 + 2 ^ 64 - deduct) % 2 ^ 64) 1

/-- Decides whether the `count -= consecutive_vowels…count()` subtraction in
`count_syllables` underflows its `usize` operand — the condition under which
a debug build of the crate panics with `attempt to subtract with overflow`. -/
def countSyllablesUnderflows (w : List Char) : Bool :=
  let cw := cleanedWord w
  if cw.isEmpty then false
  else
    let vruns := runs isVowelChar cw
    let c0 := vruns.length
    let c1 :=
      if endsWith cw ['e'] && decide (1 < c0) && !endsWith cw ['l', 'e'] then
        c0 - 1
      else c0
    let deduct := (vruns.filter (fun r => decide (2 ≤ r.length))).length
    decide (c1 < deduct)

/-- Modelled from the spec (section 4.2): the five-step syllable heuristic
exactly as the specification words it, with ordinary integer arithmetic —
count vowel runs, apply the silent-e correction, subtract the number of
vowel runs of length at least two, then clamp to a minimum of 1.  Used to
compare the specified heuristic with the code's `usize` arithmetic. -/
def countSyllablesSpec (w : List Char) : ℕ :=
  let cw := cleanedWord w
  if cw.isEmpty then 0
  else
    let vruns := runs isVowelChar cw
    let c0 : ℤ := vruns.length
    let c1 : ℤ :=
      if endsWith cw ['e'] && decide (1 < vruns.length) &&
          !endsWith cw ['l', 'e'] then
        c0 - 1
      else c0
    let deduct : ℤ := ((vruns.filter (fun r => decide (2 ≤ r.length))).length : ℤ)
    (max (c1 - deduct) 1).toNat

/-- Embeds `TextAnalyzer::is_complex_word`. -/
def isComplexWord (w : List Char) (syllableCount : ℕ) : Bool :=
  let cw := cleanedWord w
  decide (3 ≤ syllableCount) && !endsWith cw ['e', 'd'] &&
    !endsWith cw ['e', 's'] && !endsWith cw ['i', 'n', 'g']

/-- Scanner for `word_pattern.find_iter`, i.e. for the regex
`\b[a-zA-Z]+\b`.  `sOK` records whether a run starting at the current
position would have a valid left word boundary (the previous character, if
any, is not a word character); `cur` holds the reversed ASCII-letter run
currently being read, whose left-boundary validity is frozen in `sOK`.  A
finished run is emitted only when both `\b` anchors hold. -/
def wordTokensGo (sOK : Bool) (cur : List Char) : List Char → List (List Char)
  | [] => if cur.isEmpty then [] else if sOK then [cur.reverse] else []
  | c :: cs =>
    if isAsciiLetter c then wordTokensGo sOK (c :: cur) cs
    else if cur.isEmpty then wordTokensGo (!isWordChar c) cur cs
    else
      (if sOK && !isWordChar c then [cur.reverse] else []) ++
        wordTokensGo (!isWordChar c) [] cs

/-- Embeds `word_pattern.find_iter(text)`: the word tokens of the text, in
order of appearance, duplicates retained. -/
def wordTokens (t : List Char) : List (List Char) :=
  wordTokensGo true [] t

/-- Mirrors the `TextMetrics` struct of the source.  The `usize` counters
are `Nat`; the three division-only `f64` scores and the two averages are
modelled exactly over `ℚ`; the SMOG score, which takes a square root, over
`ℝ`. -/
structure TextMetrics where
  word_count : ℕ
  sentence_count : ℕ
  syllable_count : ℕ
  complex_word_count : ℕ
  character_count : ℕ
  gunning_fog_index : ℚ
  flesch_kincaid_grade : ℚ
  flesch_reading_ease : ℚ
  smog_index : ℝ
  average_words_per_sentence : ℚ
  average_syllables_per_word : ℚ

/-- Embeds the `syllable_count += word_syllables` accumulation loop of
`analyze_text`: a `usize` addition, modelled with the release-build wrapping
semantics (a debug build panics on the same overflow).  Folds the per-word
syllable counts with addition modulo `2 ^ 64`. -/
def wrapSum (l : List ℕ) : ℕ :=
  l.foldl (fun acc x => (acc + x) % 2 ^ 64) 0

/-- Embeds `TextAnalyzer::calculate_gunning_fog`. -/
def calculateGunningFog (words sentences complexWords : ℕ) : ℚ :=
  if words = 0 ∨ sentences = 0 then 0
  else 0.4 * ((words : ℚ) / (sentences : ℚ) +
    100 * ((complexWords : ℚ) / (words : ℚ)))

/-- Embeds `TextAnalyzer::calculate_flesch_kincaid_grade`. -/
def calculateFleschKincaidGrade (words sentences syllables : ℕ) : ℚ :=
  if words = 0 ∨ sentences = 0 then 0
  else 0.39 * ((words : ℚ) / (sentences : ℚ)) +
    11.8 * ((syllables : ℚ) / (words : ℚ)) - 15.59

/-- Embeds `TextAnalyzer::calculate_flesch_reading_ease`. -/
def calculateFleschReadingEase (words sentences syllables : ℕ) : ℚ :=
  if words = 0 ∨ sentences = 0 then 0
  else 206.835 - 1.015 * ((words : ℚ) / (sentences : ℚ)) -
    84.6 * ((syllables : ℚ) / (words : ℚ))

/-- Embeds `TextAnalyzer::calculate_smog`. -/
noncomputable def calculateSmog (sentences complexWords : ℕ) : ℝ :=
  if sentences < 30 then 0
  else 1.0430 * Real.sqrt ((complexWords : ℝ) * (30 / (sentences : ℝ))) + 3.1291

/-- Embeds `TextAnalyzer::analyze_text`: tokenize, count sentences (floored
at 1), count alphabetic characters, fold syllable and complex-word counts
over the tokens, then fill in the derived scores.  The syllable accumulator
is the wrapping `usize` fold `wrapSum` (see there); that wrapped value is
what the source hands to the Flesch formulas and the syllable average. -/
noncomputable def analyzeText (text : List Char) : TextMetrics :=
  { word_count := (wordTokens text).length
    sentence_count := Nat.max (runs isSentenceChar text).length 1
    syllable_count := wrapSum ((wordTokens text).map countSyllables)
    complex_word_count :=
      ((wordTokens text).filter (fun w => isComplexWord w (countSyllables w))).length
    character_count := (text.filter isAlphabetic).length
    gunning_fog_index :=
      calculateGunningFog (wordTokens text).length
        (Nat.max (runs isSentenceChar text).length 1)
        ((wordTokens text).filter (fun w => isComplexWord w (countSyllables w))).length
    flesch_kincaid_grade :=
      calculateFleschKincaidGrade (wordTokens text).length
        (Nat.max (runs isSentenceChar text).length 1)
        (wrapSum ((wordTokens text).map countSyllables))
    flesch_reading_ease :=
      calculateFleschReadingEase (wordTokens text).length
        (Nat.max (runs isSentenceChar text).length 1)
        (wrapSum ((wordTokens text).map countSyllables))
    smog_index :=
      calculateSmog (Nat.max (runs isSentenceChar text).length 1)
        ((wordTokens text).filter (fun w => isComplexWord w (countSyllables w))).length
    average_words_per_sentence :=
      ((wordTokens text).length : ℚ) /
        ((Nat.max (runs isSentenceChar text).length 1 : ℕ) : ℚ)
    average_syllables_per_word :=
      if 0 < (wordTokens text).length then
        ((wrapSum ((wordTokens text).map countSyllables)) : ℚ) /
          ((wordTokens text).length : ℚ)
      else 0 }

/-- Modelled from the spec (section 4.1 and claim C4, amended): the word
tokens described positionally.  Index `i` yields a token exactly when a
maximal ASCII-letter run starts there (the character at `i` is a letter,
and for `i = 0` the flag `sOK`, for `i = j + 1` the character at `j` not
being a word character, certifies the left `\b` anchor) and the character
following the run, if any, is not a word character (the right `\b`
anchor). -/
def specTokensGo (sOK : Bool) (l : List Char) : List (List Char) :=
  (List.range l.length).filterMap (fun i =>
    if ((l.drop i).head?.any isAsciiLetter) &&
        (match i with
         | 0 => sOK
         | j + 1 => !((l.drop j).head?.any isWordChar)) &&
        !(((l.drop i).dropWhile isAsciiLetter).head?.any isWordChar) then
      some ((l.drop i).takeWhile isAsciiLetter)
    else none)

/-- Modelled from the spec: the word tokens of a whole text — at the start
of the text the left boundary condition holds vacuously. -/
def specTokens (l : List Char) : List (List Char) := specTokensGo true l

/-- Counts the positions of `l` that start a maximal run of characters
satisfying `p`; for position 0 the flag `inRun` says whether a run was
already open just before `l`. -/
def runStartsGo (p : Char → Bool) (inRun : Bool) (l : List Char) : ℕ :=
  (List.range l.length).countP (fun i =>
    ((l.drop i).head?.any p) &&
    (match i with
     | 0 => !inRun
     | j + 1 => !((l.drop j).head?.any p)))

/-- Modelled from the spec (claim C5): the number of maximal runs of
sentence-terminator characters, described positionally as the number of
positions at which such a run starts. -/
def specSentenceStarts (t : List Char) : ℕ := runStartsGo isSentenceChar false t

theorem isAlphabetic_of_isAsciiLetter {c : Char} (h : isAsciiLetter c = true) :
    isAlphabetic c = true := by
  simp [isAlphabetic, isAsciiLetter] at h ⊢
  exact Or.inl h

theorem isWordChar_of_isAsciiLetter {c : Char} (h : isAsciiLetter c = true) :
    isWordChar c = true := by
  simp [isWordChar]
  exact Or.inl (Or.inl (by simpa [isAlphabetic] using Or.inl (by simpa [isAsciiLetter] using h)))

theorem specTokensGo_nil (sOK : Bool) : specTokensGo sOK [] = [] := by
  simp [specTokensGo]

theorem specTokensGo_cons (sOK : Bool) (c : Char) (cs : List Char) :
    specTokensGo sOK (c :: cs) =
      (if isAsciiLetter c && sOK &&
          !(((c :: cs).dropWhile isAsciiLetter).head?.any isWordChar) then
        [(c :: cs).takeWhile isAsciiLetter] else []) ++
      specTokensGo (!isWordChar c) cs := by
  unfold specTokensGo
  rw [List.length_cons, List.range_succ_eq_map, List.filterMap_cons,
    List.filterMap_map]
  have htail :
      ((fun i =>
        if ((c :: cs).drop i).head?.any isAsciiLetter &&
            (match i with
             | 0 => sOK
             | j + 1 => !(((c :: cs).drop j).head?.any isWordChar)) &&
            !((((c :: cs).drop i).dropWhile isAsciiLetter).head?.any isWordChar) then
          some (((c :: cs).drop i).takeWhile isAsciiLetter)
        else none) ∘ Nat.succ) =
      (fun i =>
        if (cs.drop i).head?.any isAsciiLetter &&
            (match i with
             | 0 => !isWordChar c
             | j + 1 => !((cs.drop j).head?.any isWordChar)) &&
            !(((cs.drop i).dropWhile isAsciiLetter).head?.any isWordChar) then
          some ((cs.drop i).takeWhile isAsciiLetter)
        else none) := by
    funext j
    cases j with
    | zero => simp [List.head?_eq_getElem?]
    | succ k => simp [List.head?_eq_getElem?]
  rw [htail]
  by_cases h : (isAsciiLetter c && sOK &&
      !(((c :: cs).dropWhile isAsciiLetter).head?.any isWordChar)) = true
  · simp only [List.drop_zero, List.head?_cons, Option.any_some] at *
    rw [if_pos h]
    simp [h]
  · simp only [List.drop_zero, List.head?_cons, Option.any_some] at *
    rw [if_neg h]
    simp [h]

theorem dropWhile_length_le (p : Char → Bool) :
    ∀ l : List Char, (l.dropWhile p).length ≤ l.length := by
  intro l
  induction l with
  | nil => simp
  | cons c cs ih =>
    rw [List.dropWhile_cons]
    by_cases hc : p c = true
    · simp only [hc, if_true]
      exact Nat.le_succ_of_le ih
    · simp [hc]

theorem wordTokensGo_run (sOK : Bool) :
    ∀ (cs cur : List Char), cur ≠ [] →
    wordTokensGo sOK cur cs =
      (if sOK && !((cs.dropWhile isAsciiLetter).head?.any isWordChar) then
        [cur.reverse ++ cs.takeWhile isAsciiLetter] else []) ++
      (match cs.dropWhile isAsciiLetter with
       | [] => []
       | d :: ds => wordTokensGo (!isWordChar d) [] ds) := by
  intro cs
  induction cs with
  | nil =>
    intro cur hcur
    have hne : cur.isEmpty = false := by
      cases cur with
      | nil => exact absurd rfl hcur
      | cons a as => rfl
    cases sOK <;> simp [wordTokensGo, hne]
  | cons c cs ih =>
    intro cur hcur
    have hne : cur.isEmpty = false := by
      cases cur with
      | nil => exact absurd rfl hcur
      | cons a as => rfl
    by_cases hc : isAsciiLetter c = true
    · have step : wordTokensGo sOK cur (c :: cs) = wordTokensGo sOK (c :: cur) cs := by
        simp [wordTokensGo, hc]
      rw [step, ih (c :: cur) (by simp)]
      simp [hc, List.dropWhile_cons, List.takeWhile_cons, List.append_assoc]
    · have hcb : isAsciiLetter c = false := by simpa using hc
      have step : wordTokensGo sOK cur (c :: cs) =
          (if sOK && !isWordChar c then [cur.reverse] else []) ++
            wordTokensGo (!isWordChar c) [] cs := by
        simp [wordTokensGo, hcb, hne]
      rw [step]
      simp [List.dropWhile_cons, List.takeWhile_cons, hcb]

theorem specTokensGo_false : ∀ cs : List Char,
    specTokensGo false cs =
      (match cs.dropWhile isAsciiLetter with
       | [] => []
       | d :: ds => specTokensGo (!isWordChar d) ds) := by
  intro cs
  induction cs with
  | nil => simp [specTokensGo_nil]
  | cons c cs ih =>
    rw [specTokensGo_cons]
    by_cases hc : isAsciiLetter c = true
    · have hw : isWordChar c = true := isWordChar_of_isAsciiLetter hc
      rw [List.dropWhile_cons]
      simp only [hc, if_true, hw, Bool.not_true]
      simpa using ih
    · have hcb : isAsciiLetter c = false := by simpa using hc
      rw [List.dropWhile_cons]
      simp [hcb]

theorem wordTokensGo_eq_specTokensGo :
    ∀ (n : ℕ) (l : List Char), l.length ≤ n → ∀ sOK : Bool,
      wordTokensGo sOK [] l = specTokensGo sOK l := by
  intro n
  induction n with
  | zero =>
    intro l hl sOK
    have : l = [] := List.eq_nil_of_length_eq_zero (Nat.le_zero.mp hl)
    subst this
    simp [wordTokensGo, specTokensGo_nil]
  | succ n ih =>
    intro l hl sOK
    cases l with
    | nil => simp [wordTokensGo, specTokensGo_nil]
    | cons c cs =>
      rw [specTokensGo_cons]
      by_cases hc : isAsciiLetter c = true
      · have step : wordTokensGo sOK [] (c :: cs) = wordTokensGo sOK [c] cs := by
          simp [wordTokensGo, hc]
        have hw : isWordChar c = true := isWordChar_of_isAsciiLetter hc
        rw [step, wordTokensGo_run sOK cs [c] (by simp)]
        have hlen : cs.length ≤ n := by
          simpa using Nat.succ_le_succ_iff.mp (by simpa using hl)
        congr 1
        · simp [hc, List.takeWhile_cons, List.dropWhile_cons]
        · rw [hw, Bool.not_true, specTokensGo_false]
          cases hdrop : cs.dropWhile isAsciiLetter with
          | nil => rfl
          | cons d ds =>
            have hdlen : ds.length ≤ n := by
              have h1 : (cs.dropWhile isAsciiLetter).length ≤ cs.length :=
                dropWhile_length_le isAsciiLetter cs
              rw [hdrop] at h1
              simp at h1
              omega
            exact ih ds hdlen (!isWordChar d)
      · have hcb : isAsciiLetter c = false := by simpa using hc
        have step : wordTokensGo sOK [] (c :: cs) =
            wordTokensGo (!isWordChar c) [] cs := by
          simp [wordTokensGo, hcb]
        have hlen : cs.length ≤ n := by
          simpa using Nat.succ_le_succ_iff.mp (by simpa using hl)
        rw [step, ih cs hlen (!isWordChar c)]
        simp [hcb]

theorem wordTokens_eq_specTokens (t : List Char) :
    wordTokens t = specTokens t :=
  wordTokensGo_eq_specTokensGo t.length t le_rfl true

theorem mem_wordTokens_ne_nil_and_alpha {t w : List Char}
    (h : w ∈ wordTokens t) : w ≠ [] ∧ ∀ c ∈ w, isAsciiLetter c = true := by
  rw [wordTokens_eq_specTokens] at h
  unfold specTokens specTokensGo at h
  rw [List.mem_filterMap] at h
  obtain ⟨i, _, hi⟩ := h
  split at hi
  case isTrue hcond =>
    have hw : w = (t.drop i).takeWhile isAsciiLetter := by
      exact (Option.some_inj.mp hi).symm
    subst hw
    constructor
    · have hhead : ((t.drop i).head?.any isAsciiLetter) = true := by
        simp only [Bool.and_eq_true] at hcond
        exact hcond.1.1
      cases hdrop : t.drop i with
      | nil => rw [hdrop] at hhead; simp at hhead
      | cons a as =>
        rw [hdrop] at hhead
        simp only [List.head?_cons, Option.any_some] at hhead
        rw [List.takeWhile_cons]
        simp [hhead]
    · intro c hc
      exact List.mem_takeWhile_imp hc
  case isFalse => simp at hi

theorem runStartsGo_nil (p : Char → Bool) (inRun : Bool) :
    runStartsGo p inRun [] = 0 := by
  simp [runStartsGo]

theorem runStartsGo_cons (p : Char → Bool) (inRun : Bool) (c : Char)
    (cs : List Char) :
    runStartsGo p inRun (c :: cs) =
      runStartsGo p (p c) cs + (if p c && !inRun then 1 else 0) := by
  unfold runStartsGo
  rw [List.length_cons, List.range_succ_eq_map, List.countP_cons,
    List.countP_map]
  have htail :
      ((fun i =>
        ((c :: cs).drop i).head?.any p &&
          (match i with
           | 0 => !inRun
           | j + 1 => !(((c :: cs).drop j).head?.any p))) ∘ Nat.succ) =
      (fun i =>
        (cs.drop i).head?.any p &&
          (match i with
           | 0 => !(p c)
           | j + 1 => !((cs.drop j).head?.any p))) := by
    funext j
    cases j with
    | zero => simp [List.head?_eq_getElem?]
    | succ k => simp [List.head?_eq_getElem?]
  rw [htail]
  simp [List.head?_cons]

theorem runsAux_length (p : Char → Bool) :
    ∀ (l cur : List Char),
      (runsAux p cur l).length =
        (if cur.isEmpty then 0 else 1) + runStartsGo p (!cur.isEmpty) l := by
  intro l
  induction l with
  | nil =>
    intro cur
    cases cur <;> simp [runsAux, runStartsGo_nil]
  | cons c cs ih =>
    intro cur
    by_cases hc : p c = true
    · cases cur with
      | nil =>
        have step : runsAux p [] (c :: cs) = runsAux p [c] cs := by
          simp [runsAux, hc]
        rw [step, ih [c], runStartsGo_cons]
        simp [hc]
        omega
      | cons a as =>
        have step : runsAux p (a :: as) (c :: cs) =
            runsAux p (c :: a :: as) cs := by
          simp [runsAux, hc]
        rw [step, ih (c :: a :: as), runStartsGo_cons]
        simp [hc]
    · have hcb : p c = false := by simpa using hc
      cases cur with
      | nil =>
        have step : runsAux p [] (c :: cs) = runsAux p [] cs := by
          simp [runsAux, hcb]
        rw [step, ih [], runStartsGo_cons]
        simp [hcb]
      | cons a as =>
        have step : runsAux p (a :: as) (c :: cs) =
            (a :: as).reverse :: runsAux p [] cs := by
          simp [runsAux, hcb]
        rw [step]
        simp only [List.length_cons, ih [], runStartsGo_cons]
        simp [hcb]
        omega

theorem runs_length_eq_starts (p : Char → Bool) (l : List Char) :
    (runs p l).length = runStartsGo p false l := by
  unfold runs
  rw [runsAux_length p l []]
  simp

theorem runs_length_le (p : Char → Bool) (l : List Char) :
    (runs p l).length ≤ l.length := by
  rw [runs_length_eq_starts]
  unfold runStartsGo
  calc (List.range l.length).countP _ ≤ (List.range l.length).length :=
        List.countP_le_length _
    _ = l.length := List.length_range _

theorem dropWhile_eq_self_of_all (p : Char → Bool) {l : List Char}
    (h : ∀ c ∈ l, p c = false) : l.dropWhile p = l := by
  cases l with
  | nil => rfl
  | cons c cs =>
    rw [List.dropWhile_cons]
    simp [h c (by simp)]

theorem trimNonAlpha_eq_self {w : List Char}
    (h : ∀ c ∈ w, isAlphabetic c = true) : trimNonAlpha w = w := by
  have h1 : w.dropWhile (fun c => !isAlphabetic c) = w :=
    dropWhile_eq_self_of_all _ (fun c hc => by simp [h c hc])
  have h2 : w.reverse.dropWhile (fun c => !isAlphabetic c) = w.reverse :=
    dropWhile_eq_self_of_all _ (fun c hc => by
      simp [h c (List.mem_reverse.mp hc)])
  unfold trimNonAlpha
  rw [h1, h2, List.reverse_reverse]

theorem cleanedWord_isEmpty_false {w : List Char} (hne : w ≠ [])
    (h : ∀ c ∈ w, isAsciiLetter c = true) :
    (cleanedWord w).isEmpty = false := by
  unfold cleanedWord
  rw [trimNonAlpha_eq_self (fun c hc => isAlphabetic_of_isAsciiLetter (h c hc))]
  cases w with
  | nil => exact absurd rfl hne
  | cons c cs => rfl

theorem one_le_countSyllables {w : List Char}
    (h : (cleanedWord w).isEmpty = false) : 1 ≤ countSyllables w := by
  unfold countSyllables
  simp only [h, Bool.false_eq_true, if_false]
  exact Nat.le_max_right _ _

theorem length_le_sum_of_one_le :
    ∀ l : List ℕ, (∀ x ∈ l, 1 ≤ x) → l.length ≤ l.sum := by
  intro l
  induction l with
  | nil => simp
  | cons x xs ih =>
    intro h
    rw [List.length_cons, List.sum_cons]
    have hx : 1 ≤ x := h x (by simp)
    have hxs : xs.length ≤ xs.sum := ih (fun y hy => h y (by simp [hy]))
    omega

theorem wrapSum_foldl (l : List ℕ) :
    ∀ acc : ℕ,
      l.foldl (fun a x => (a + x) % 2 ^ 64) (acc % 2 ^ 64) =
        (acc + l.sum) % 2 ^ 64 := by
  induction l with
  | nil => intro acc; simp
  | cons x xs ih =>
    intro acc
    rw [List.foldl_cons, Nat.mod_add_mod, ih (acc + x), List.sum_cons]
    ring_nf

theorem wrapSum_eq_sum_mod (l : List ℕ) : wrapSum l = l.sum % 2 ^ 64 := by
  have h := wrapSum_foldl l 0
  simpa [wrapSum] using h

theorem cleanedWord_length_le (w : List Char) :
    (cleanedWord w).length ≤ w.length := by
  unfold cleanedWord trimNonAlpha
  rw [List.length_map, List.length_reverse]
  calc ((w.dropWhile (fun c => !isAlphabetic c)).reverse.dropWhile
          (fun c => !isAlphabetic c)).length
      ≤ (w.dropWhile (fun c => !isAlphabetic c)).reverse.length :=
        dropWhile_length_le _ _
    _ = (w.dropWhile (fun c => !isAlphabetic c)).length :=
        List.length_reverse _
    _ ≤ w.length := dropWhile_length_le _ _

theorem wrap_sub_max_eq (c1 d : ℕ) (hd : d ≤ c1) (hc : c1 < 2 ^ 64) :
    Nat.max ((c1 + 2 ^ 64 - d) % 2 ^ 64) 1 = (max ((c1 : ℤ) - d) 1).toNat := by
  have h1 : c1 + 2 ^ 64 - d = (c1 - d) + 2 ^ 64 := by omega
  rw [h1, Nat.add_mod_right, Nat.mod_eq_of_lt (by omega)]
  rcases Nat.eq_zero_or_pos (c1 - d) with h0 | hpos
  · have hcd : (c1 : ℤ) = (d : ℤ) := by omega
    rw [h0, hcd]
    simp
  · have hmax1 : Nat.max (c1 - d) 1 = c1 - d := Nat.max_eq_left hpos
    have hmax2 : max ((c1 : ℤ) - d) 1 = (c1 : ℤ) - d :=
      max_eq_left (by omega)
    rw [hmax1, hmax2]
    omega

theorem countSyllables_eq_countSyllablesSpec {w : List Char}
    (h : countSyllablesUnderflows w = false) (hlen : w.length < 2 ^ 64) :
    countSyllables w = countSyllablesSpec w := by
  have hruns : (runs isVowelChar (cleanedWord w)).length ≤ w.length :=
    le_trans (runs_length_le _ _) (cleanedWord_length_le w)
  have hfil : ((runs isVowelChar (cleanedWord w)).filter
      (fun r => decide (2 ≤ r.length))).length ≤
      (runs isVowelChar (cleanedWord w)).length :=
    List.length_filter_le _ _
  unfold countSyllables countSyllablesSpec
  unfold countSyllablesUnderflows at h
  by_cases hcw : (cleanedWord w).isEmpty = true
  · simp only [hcw, if_true]
  · have hcwf : (cleanedWord w).isEmpty = false := by simpa using hcw
    simp only [hcwf, Bool.false_eq_true, if_false] at h ⊢
    by_cases hB : (endsWith (cleanedWord w) ['e'] &&
        decide (1 < (runs isVowelChar (cleanedWord w)).length) &&
        !endsWith (cleanedWord w) ['l', 'e']) = true
    · simp only [hB, if_true] at h ⊢
      simp only [decide_eq_false_iff_not, Nat.not_lt] at h
      rw [wrap_sub_max_eq _ _ h (by omega)]
      have hA : 1 < (runs isVowelChar (cleanedWord w)).length := by
        simp only [Bool.and_eq_true, decide_eq_true_eq] at hB
        exact hB.1.2
      have hcast : (((runs isVowelChar (cleanedWord w)).length - 1 : ℕ) : ℤ) =
          ((runs isVowelChar (cleanedWord w)).length : ℤ) - 1 := by omega
      rw [hcast]
    · simp only [hB, Bool.false_eq_true, if_false] at h ⊢
      simp only [decide_eq_false_iff_not, Nat.not_lt] at h
      rw [wrap_sub_max_eq _ _ h (by omega)]

/-- Claim C1: the spec asserts `analyze` is total with no panic path, and in
particular that `count_syllables` completes on every word token.  The code
violates this: on the token "teepee" the subtraction `count -=
consecutive_vowels…count()` underflows its `usize` (1 - 2), so a debug
build panics; a release build wraps to `2 ^ 64 - 1`.  This theorem
evaluates the embedded code at the failing input. -/
theorem count_syllables_underflows_on_teepee :
    countSyllablesUnderflows ['t', 'e', 'e', 'p', 'e', 'e'] = true ∧
    countSyllables ['t', 'e', 'e', 'p', 'e', 'e'] = 2 ^ 64 - 1 :=
  ⟨by decide, by decide⟩

/-- Claim C2: the spec (and the crate's own unit test) assert
`count_syllables("cat") = 1`, `count_syllables("water") = 2`,
`count_syllables("beautiful") = 3`.  The code gives 1, 2 and 2: "beautiful"
has three vowel runs (eau, i, u) and the consecutive-vowel correction
subtracts 1 for "eau", so the crate's test `assert_eq!(…("beautiful"), 3)`
fails against its own implementation. -/
theorem count_syllables_literal_scenario :
    countSyllables ['c', 'a', 't'] = 1 ∧
    countSyllables ['w', 'a', 't', 'e', 'r'] = 2 ∧
    countSyllables ['b', 'e', 'a', 'u', 't', 'i', 'f', 'u', 'l'] = 2 :=
  ⟨by decide, by decide, by decide⟩

/-- Claim C3, counterexample: on the word "teepee" the code's result
(`usize` wrap-around, `2 ^ 64 - 1`) differs from the five-step heuristic of
the spec, which clamps the over-subtracted total back up to 1. -/
theorem count_syllables_ne_heuristic_on_teepee :
    countSyllables ['t', 'e', 'e', 'p', 'e', 'e'] ≠
      countSyllablesSpec ['t', 'e', 'e', 'p', 'e', 'e'] := by decide

/-- Claim C3, amended: for every word whose double-vowel correction does not
underflow (and whose length is below `2 ^ 64`, as for every Rust string),
`count_syllables` computes exactly the five-step heuristic of the spec. -/
theorem count_syllables_matches_heuristic (w : List Char)
    (h : countSyllablesUnderflows w = false) (hlen : w.length < 2 ^ 64) :
    countSyllables w = countSyllablesSpec w :=
  countSyllables_eq_countSyllablesSpec h hlen

/-- Witness for `count_syllables_matches_heuristic` at the word "cat". -/
theorem count_syllables_matches_heuristic_witness :
    countSyllablesUnderflows ['c', 'a', 't'] = false ∧
    (['c', 'a', 't'] : List Char).length < 2 ^ 64 ∧
    countSyllables ['c', 'a', 't'] = countSyllablesSpec ['c', 'a', 't'] :=
  ⟨by decide, by decide,
    count_syllables_matches_heuristic ['c', 'a', 't'] (by decide) (by decide)⟩

/-- Claim C4, counterexample: word tokens are not simply the maximal runs of
ASCII letters.  In "abc1" the run "abc" is followed by a digit, so the
trailing `\b` of `word_pattern` fails and the analyzer finds no word at
all, while the claim predicts one word. -/
theorem word_tokens_ne_ascii_runs_on_abc1 :
    wordTokens ['a', 'b', 'c', '1'] ≠ runs isAsciiLetter ['a', 'b', 'c', '1'] ∧
    (analyzeText ['a', 'b', 'c', '1']).word_count ≠
      (runs isAsciiLetter ['a', 'b', 'c', '1']).length :=
  ⟨by decide, by decide⟩

/-- Claim C4, amended: the word tokens are exactly the maximal contiguous
runs of ASCII letters whose neighbouring characters, when present, are not
word characters (the `\b` anchors exclude runs flanked by digits,
underscores, or non-ASCII word characters), in order of appearance with
duplicates retained, and `word_count` is the number of such runs. -/
theorem word_tokens_are_boundary_checked_runs (t : List Char) :
    wordTokens t = specTokens t ∧
    (analyzeText t).word_count = (specTokens t).length := by
  refine ⟨wordTokens_eq_specTokens t, ?_⟩
  show (wordTokens t).length = (specTokens t).length
  rw [wordTokens_eq_specTokens t]

/-- Claim C5: `sentence_count` is the number of maximal runs of characters
from the set \x7b . ! ? \x7d — each run counting as one sentence end —
floored at 1, so empty or punctuation-free text still reports 1. -/
theorem sentence_count_characterization (t : List Char) :
    (analyzeText t).sentence_count = Nat.max (specSentenceStarts t) 1 ∧
    1 ≤ (analyzeText t).sentence_count := by
  constructor
  · show Nat.max (runs isSentenceChar t).length 1 = Nat.max (specSentenceStarts t) 1
    rw [runs_length_eq_starts]
    rfl
  · show 1 ≤ Nat.max (runs isSentenceChar t).length 1
    exact Nat.le_max_right _ _

/-- Claim C6: the Gunning Fog, Flesch-Kincaid grade and Flesch reading-ease
fields equal their closed-form formulas whenever `word_count > 0`, and are
exactly 0 when `word_count = 0` (the `sentences = 0` guard of the code is
unreachable because `sentence_count` is floored at 1). -/
theorem readability_formulas (t : List Char) :
    ((analyzeText t).gunning_fog_index =
      if (analyzeText t).word_count = 0 then 0
      else 0.4 * (((analyzeText t).word_count : ℚ) /
          ((analyzeText t).sentence_count : ℚ) +
        100 * (((analyzeText t).complex_word_count : ℚ) /
          ((analyzeText t).word_count : ℚ)))) ∧
    ((analyzeText t).flesch_kincaid_grade =
      if (analyzeText t).word_count = 0 then 0
      else 0.39 * (((analyzeText t).word_count : ℚ) /
          ((analyzeText t).sentence_count : ℚ)) +
        11.8 * (((analyzeText t).syllable_count : ℚ) /
          ((analyzeText t).word_count : ℚ)) - 15.59) ∧
    ((analyzeText t).flesch_reading_ease =
      if (analyzeText t).word_count = 0 then 0
      else 206.835 - 1.015 * (((analyzeText t).word_count : ℚ) /
          ((analyzeText t).sentence_count : ℚ)) -
        84.6 * (((analyzeText t).syllable_count : ℚ) /
          ((analyzeText t).word_count : ℚ))) := by
  have hs : ¬(Nat.max (runs isSentenceChar t).length 1 = 0) :=
    Nat.one_le_iff_ne_zero.mp (Nat.le_max_right _ _)
  refine ⟨?_, ?_, ?_⟩
  · simp only [analyzeText, calculateGunningFog, or_iff_left hs]
  · simp only [analyzeText, calculateFleschKincaidGrade, or_iff_left hs]
  · simp only [analyzeText, calculateFleschReadingEase, or_iff_left hs]

/-- Claim C7: the SMOG index is exactly 0 when `sentence_count < 30`, and
equals `1.0430 * sqrt(complex_words * (30 / sentences)) + 3.1291`
otherwise. -/
theorem smog_index_characterization (t : List Char) :
    (analyzeText t).smog_index =
      if (analyzeText t).sentence_count < 30 then 0
      else 1.0430 * Real.sqrt (((analyzeText t).complex_word_count : ℝ) *
        (30 / ((analyzeText t).sentence_count : ℝ))) + 3.1291 := by
  simp only [analyzeText, calculateSmog]

/-- Claim C8: the complex-word classifier returns true exactly when the
syllable estimate is at least 3 and the lowercased, trimmed word does not
end in "ed", "es" or "ing"; `complex_word_count` counts the word tokens on
which the classifier holds with the token's own syllable estimate. -/
theorem complex_word_classifier_characterization :
    (∀ (w : List Char) (s : ℕ),
      isComplexWord w s = true ↔
        3 ≤ s ∧ ¬ ((['e', 'd'] : List Char) <:+ cleanedWord w) ∧
          ¬ ((['e', 's'] : List Char) <:+ cleanedWord w) ∧
          ¬ ((['i', 'n', 'g'] : List Char) <:+ cleanedWord w)) ∧
    (∀ t : List Char, (analyzeText t).complex_word_count =
      (wordTokens t).countP (fun w => isComplexWord w (countSyllables w))) := by
  constructor
  · intro w s
    simp [isComplexWord, endsWith, List.isSuffixOf_iff_suffix, and_assoc,
      Bool.eq_false_iff]
  · intro t
    show ((wordTokens t).filter
        (fun w => isComplexWord w (countSyllables w))).length = _
    rw [List.countP_eq_length_filter]

/-- Claim C9, counterexample: `syllable_count ≥ word_count` fails on the
text "teepee cat".  `count_syllables("teepee")` wraps to `2 ^ 64 - 1` (see
claim C1), and the `usize` accumulator `syllable_count += word_syllables`
then wraps `(2 ^ 64 - 1) + 1` to 0, so the release build returns
`syllable_count = 0 < 2 = word_count` (a debug build panics instead). -/
theorem syllable_count_lt_word_count_on_teepee_cat :
    (analyzeText
        ['t', 'e', 'e', 'p', 'e', 'e', ' ', 'c', 'a', 't']).syllable_count = 0 ∧
    (analyzeText
        ['t', 'e', 'e', 'p', 'e', 'e', ' ', 'c', 'a', 't']).word_count = 2 ∧
    ¬((analyzeText
        ['t', 'e', 'e', 'p', 'e', 'e', ' ', 'c', 'a', 't']).word_count ≤
      (analyzeText
        ['t', 'e', 'e', 'p', 'e', 'e', ' ', 'c', 'a', 't']).syllable_count) :=
  ⟨by decide, by decide, by decide⟩

/-- Claim C9, amended: `complex_word_count ≤ word_count` holds for every
input; each word token contributes at least 1 syllable, so
`word_count ≤ syllable_count` holds whenever the `usize` syllable
accumulator does not wrap, i.e. whenever the true sum of the per-token
syllable counts stays below `2 ^ 64` — on inputs where a token triggers the
`count_syllables` underflow the accumulator can wrap below `word_count` (or
panic in a debug build). -/
theorem aggregate_count_invariants (t : List Char) :
    (analyzeText t).complex_word_count ≤ (analyzeText t).word_count ∧
    (((wordTokens t).map countSyllables).sum < 2 ^ 64 →
      (analyzeText t).word_count ≤ (analyzeText t).syllable_count) := by
  constructor
  · show ((wordTokens t).filter
        (fun w => isComplexWord w (countSyllables w))).length ≤
      (wordTokens t).length
    exact List.length_filter_le _ _
  · intro h
    show (wordTokens t).length ≤ wrapSum ((wordTokens t).map countSyllables)
    rw [wrapSum_eq_sum_mod, Nat.mod_eq_of_lt h]
    have hlen : (wordTokens t).length =
        ((wordTokens t).map countSyllables).length :=
      (List.length_map _ _).symm
    rw [hlen]
    apply length_le_sum_of_one_le
    intro x hx
    rw [List.mem_map] at hx
    obtain ⟨w, hw, rfl⟩ := hx
    obtain ⟨hne, hall⟩ := mem_wordTokens_ne_nil_and_alpha hw
    exact one_le_countSyllables (cleanedWord_isEmpty_false hne hall)

/-- Witness for `aggregate_count_invariants` at the text "a b.": the
syllable sum is far below `2 ^ 64`, and both inequalities hold there. -/
theorem aggregate_count_invariants_witness :
    (analyzeText ['a', ' ', 'b', '.']).complex_word_count ≤
      (analyzeText ['a', ' ', 'b', '.']).word_count ∧
    ((wordTokens ['a', ' ', 'b', '.']).map countSyllables).sum < 2 ^ 64 ∧
    (analyzeText ['a', ' ', 'b', '.']).word_count ≤
      (analyzeText ['a', ' ', 'b', '.']).syllable_count :=
  ⟨(aggregate_count_invariants ['a', ' ', 'b', '.']).1, by decide,
    (aggregate_count_invariants ['a', ' ', 'b', '.']).2 (by decide)⟩

/-- Claim C10: `character_count` uses the Unicode alphabetic test while word
tokens admit only ASCII letters: on the text "é" the analyzer reports no
words but one alphabetic character, and the letter é is alphabetic without
being an ASCII letter. -/
theorem character_count_unicode_vs_ascii_words :
    (analyzeText ['é']).word_count = 0 ∧
    (analyzeText ['é']).character_count = 1 ∧
    isAsciiLetter 'é' = false ∧ isAlphabetic 'é' = true :=
  ⟨by decide, by decide, by decide, by decide⟩
